import Mathlib

/-!
Verification of the include-resolution core of `npm-file-include`
(`src/npmFileInclude.js` and its near-duplicate CLI copy).

Strings are modelled as `List Char`.  The filesystem is modelled as a
function from paths to a read result (`ReadRes`): JavaScript
`fs.readFileSync` either returns contents, fails with `EISDIR`
(distinguished in `checkForPattern`) or fails with some other error.
The JavaScript recursion of `doFileInclude` is unbounded (the source has
no cycle detection), so the Lean embedding threads an explicit fuel
parameter; every theorem below supplies enough fuel for the execution it
talks about.
-/

set_option maxRecDepth 4000

/-- The single-quote character, written by code to avoid escaping issues. -/
def qch : Char := Char.ofNat 39

/-- The backtick character. -/
def btick : Char := Char.ofNat 96

/-- Model of a JavaScript filesystem read: contents, `EISDIR`, or another error. -/
inductive ReadRes where
  | ok : List Char → ReadRes
  | eisdir : ReadRes
  | err : ReadRes
deriving DecidableEq, Repr

/-- Whether a read succeeded. -/
def ReadRes.isOk : ReadRes → Bool
  | .ok _ => true
  | _ => false

/-- A filesystem: a map from path strings to read results. -/
def FS : Type := List Char → ReadRes

/-- Template-literal path join as in the source, which everywhere builds
paths with backquote interpolation of the shape `dir/file`. -/
def joinPath (a b : List Char) : List Char := a ++ '/' :: b

/-- JavaScript `file.split('/')` (split on every slash, keeping empty pieces). -/
def splitSlash : List Char → List (List Char)
  | [] => [[]]
  | c :: cs =>
    if c = '/' then [] :: splitSlash cs
    else
      match splitSlash cs with
      | [] => [[c]]
      | g :: gs => (c :: g) :: gs

/-- Source `getFilename`: `file => file.split('/').pop()`. -/
def getFilename (file : List Char) : List Char := (splitSlash file).getLastD []

/-- Source `getDirectory`: split on slash, drop the last segment, rejoin. -/
def getDirectory (file : List Char) : List Char :=
  List.intercalate ['/'] (splitSlash file).dropLast

/-- Model of Node's `path.dirname` for the slash-separated relative paths
produced by the glob collaborator (every scanned path contains a slash). -/
def dirname (p : List Char) : List Char :=
  if (splitSlash p).length ≤ 1 then ['.'] else List.intercalate ['/'] (splitSlash p).dropLast

/-- One occurrence of an include directive: `match[0]` (field `string`,
the literal matched text) and `match[1]` (field `filename`, the captured
path argument) of the regex `@@include\(\x27(.*)\x27\)`. -/
structure DirectiveMatch where
  string : List Char
  filename : List Char
deriving DecidableEq, Repr

/-- A file discovered by `checkForPattern`: `{ directory, filename, matches }`. -/
structure SourceFile where
  directory : List Char
  filename : List Char
  matchList : List DirectiveMatch
deriving DecidableEq, Repr

/-- The argument shape `doFileInclude` receives: a root file from
`checkForPattern` has no `string` property (`none`); the synthetic file
built from a match during recursion carries the match's literal text. -/
structure IncFile where
  directory : List Char
  filename : List Char
  string : Option (List Char)
deriving DecidableEq, Repr

/-- The literal text `@@include(` followed by a single quote: the fixed
prefix of the regex `includePattern`. -/
def includeLit : List Char := "@@include(".toList ++ [qch]

/-- The fixed tail of the regex: a single quote followed by `)`. -/
def closeLit : List Char := [qch, ')']

/-- The full literal text of a directive with path argument `f`. -/
def dirText (f : List Char) : List Char := includeLit ++ f ++ closeLit

/-- Whether a character can be matched by `.` in a JavaScript regex
without the `s` flag: anything except the four line terminators. -/
def lineOk (ch : Char) : Bool :=
  !(ch = '\n' || ch = '\r' || ch = Char.ofNat 0x2028 || ch = Char.ofNat 0x2029)

/-- The greedy capture of `(.*)` at the current position: the largest `k`
such that the first `k` characters contain no line terminator and are
immediately followed by the literal `\x27)`.  `none` when the backtracking
of the JavaScript engine finds no way to complete the match here. -/
def greedyCapture (rest : List Char) : Option Nat :=
  (List.range ((rest.takeWhile lineOk).length + 1)).reverse.find?
    (fun k => closeLit.isPrefixOf (rest.drop k))

/-- The scanning loop of `getMatches` with the global regex
`includePattern`: at each position try to match `@@include\(\x27(.*)\x27\)`
(greedy, leftmost), record a match and resume after it, otherwise advance
one character.  `fuel` is an upper bound on the remaining characters; it
makes the recursion structural and is supplied as `data.length` by
`getMatches`, which always suffices since every step consumes at least
one character. -/
def getMatchesAux (fuel : Nat) (s : List Char) : List DirectiveMatch :=
  match fuel, s with
  | 0, _ => []
  | _, [] => []
  | fuel2 + 1, ch :: cs =>
    if includeLit.isPrefixOf (ch :: cs) then
      match greedyCapture ((ch :: cs).drop includeLit.length) with
      | some k =>
        let rest := (ch :: cs).drop includeLit.length
        ⟨includeLit ++ rest.take k ++ closeLit, rest.take k⟩ ::
          getMatchesAux fuel2 (rest.drop (k + 2))
      | none => getMatchesAux fuel2 cs
    else getMatchesAux fuel2 cs

/-- Source `getMatches(data, pattern)` specialised to the one pattern the
program ever passes, `includePattern = @@include\(\x27(.*)\x27\)` with the
`g` flag: the list of successive `pattern.exec` results, in order. -/
def getMatches (data : List Char) : List DirectiveMatch :=
  getMatchesAux data.length data

example : getMatches ("a".toList ++ dirText "f.html".toList ++ "b".toList) =
    [⟨dirText "f.html".toList, "f.html".toList⟩] := by decide

example : getMatches "plain text".toList = [] := by decide

example :
    getMatches (dirText "a.html".toList ++ " ".toList ++ dirText "b.html".toList) =
    [⟨includeLit ++ ("a.html".toList ++ closeLit ++ " ".toList ++ includeLit ++ "b.html".toList)
        ++ closeLit,
      "a.html".toList ++ closeLit ++ " ".toList ++ includeLit ++ "b.html".toList⟩] := by decide

/-- Index of the first occurrence of `search` in `s` (JavaScript
`String.indexOf` as used by `String.replace` with a string argument). -/
def firstIdx (s search : List Char) : Option Nat :=
  if search.isPrefixOf s then some 0
  else
    match s with
    | [] => none
    | _ :: t => (firstIdx t search).map (· + 1)

/-- ECMAScript `GetSubstitution` for a string search value (no capture
groups): in the replacement string, `$$` yields `$`, `$&` the matched
text, a dollar followed by a backquote the text before the match, a
dollar followed by a quote the text after the match; every other
character, and every other dollar sequence, is copied literally. -/
def getSubstitution (matched before after : List Char) : List Char → List Char
  | [] => []
  | c :: t =>
    if c = '$' then
      match t with
      | [] => ['$']
      | c2 :: t2 =>
        if c2 = '$' then '$' :: getSubstitution matched before after t2
        else if c2 = '&' then matched ++ getSubstitution matched before after t2
        else if c2 = btick then before ++ getSubstitution matched before after t2
        else if c2 = qch then after ++ getSubstitution matched before after t2
        else '$' :: c2 :: getSubstitution matched before after t2
    else c :: getSubstitution matched before after t

/-- JavaScript `s.replace(search, repl)` with string arguments: replace
only the first occurrence of `search`, passing `repl` through
`GetSubstitution`; return `s` unchanged when `search` does not occur. -/
def jsReplace (s search repl : List Char) : List Char :=
  match firstIdx s search with
  | none => s
  | some i =>
    s.take i ++ getSubstitution search (s.take i) (s.drop (i + search.length)) repl
      ++ s.drop (i + search.length)

/-- The string a JavaScript template literal produces for the `undefined`
value: `contents.replace(file.string, ...)` on a root file (which has no
`string` property) searches for this text. -/
def undefinedLit : List Char := "undefined".toList

/-- The placeholder message `File not found: <filename>` built in the
catch block of `doFileInclude`. -/
def notFoundText (fname : List Char) : List Char := "File not found: ".toList ++ fname

/-- The directory a match is resolved against (`doFileInclude` loop body):
`file.directory` joined with the directory part of `file.filename` when
the latter is non-empty, else `file.directory` alone. -/
def matchDir (file : IncFile) : List Char :=
  if getDirectory file.filename = [] then file.directory
  else joinPath file.directory (getDirectory file.filename)

/-- The catch block of `doFileInclude`: build `File not found: <filename>`,
and when `insertNotFound` is on, replace `file.string` (the text
`undefined` for a root file) in the contents accumulated so far; always
increment the error counter. -/
def doFileIncludeCatch (file : IncFile) (insertNF : Bool) (contents : List Char) (errs : Nat) :
    List Char × Nat :=
  (if insertNF then jsReplace contents (file.string.getD undefinedLit) (notFoundText file.filename)
   else contents,
   errs + 1)

/-- The `for( let match of matches )` loop of `doFileInclude`.  `recurse`
is the recursive call at one fuel less (applied with `insertNotFound`
defaulted to `true`, as the source's argument-less recursive call does);
in non-recursive mode a failing fragment read throws into the enclosing
catch with the partially substituted contents.  Returns the final
contents and the number of `summary.errors` increments. -/
def doFileIncludeLoop (recurse : IncFile → List Char × Nat) (fs : FS) (recursive : Bool)
    (file : IncFile) (insertNF : Bool) :
    List Char → List DirectiveMatch → Nat → List Char × Nat
  | contents, [], errs => (contents, errs)
  | contents, m :: rest, errs =>
    if recursive then
      let r := recurse ⟨matchDir file, m.filename, some m.string⟩
      doFileIncludeLoop recurse fs recursive file insertNF
        (jsReplace contents m.string r.1) rest (errs + r.2)
    else
      match fs (joinPath (matchDir file) m.filename) with
      | ReadRes.ok mc =>
        doFileIncludeLoop recurse fs recursive file insertNF
          (jsReplace contents m.string mc) rest errs
      | _ => doFileIncludeCatch file insertNF contents errs

/-- Source `doFileInclude(file, insertNotFound)`: read the file, scan its
contents for directives, and substitute each in order — recursively
resolving the referenced file when `includeRecursive` is set, else
inlining its raw contents.  Any failed read lands in the catch block.
The JavaScript recursion is unbounded; `fuel` bounds the modelled depth
(fuel exhaustion, which corresponds to the original blowing the call
stack on a cyclic include, returns the empty result). -/
def doFileInclude (recursive : Bool) (fs : FS) : Nat → IncFile → Bool → List Char × Nat
  | 0, _, _ => ([], 0)
  | fuel + 1, file, insertNF =>
    match fs (joinPath file.directory file.filename) with
    | ReadRes.ok contents =>
      doFileIncludeLoop (fun mf => doFileInclude recursive fs fuel mf true) fs recursive
        file insertNF contents (getMatches contents) 0
    | _ => doFileIncludeCatch file insertNF [] 0

/-- Source `checkForPattern(files, pattern)`: read each candidate path,
keep those whose contents contain at least one directive (recording
`path.dirname` as directory and the last path segment as filename); an
`EISDIR` read failure logs and breaks out of the loop, any other read
failure is silently skipped. -/
def checkForPattern (fs : FS) : List (List Char) → List SourceFile
  | [] => []
  | f :: rest =>
    match fs f with
    | ReadRes.ok contents =>
      let ms := getMatches contents
      if ms = [] then checkForPattern fs rest
      else ⟨dirname f, getFilename f, ms⟩ :: checkForPattern fs rest
    | ReadRes.eisdir => []
    | ReadRes.err => checkForPattern fs rest

/-- Source `removeIncludedFiles(files)`: for every match of every file of
the original list, filter the working list down to the files whose
`filename` differs from the match's referenced filename (last path
segment of the path argument). -/
def removeIncludedFiles (files : List SourceFile) : List SourceFile :=
  files.foldl
    (fun acc file =>
      file.matchList.foldl
        (fun acc2 m => acc2.filter (fun f => decide (getFilename m.filename ≠ f.filename)))
        acc)
    files

/-- The destination path computed in `writeFiles`: `file.filename` when
`omitSourceParent` is true, else `file.directory` joined with
`file.filename`. -/
def outputPath (omitSP : Bool) (f : SourceFile) : List Char :=
  if omitSP then f.filename else joinPath f.directory f.filename

/-- Source `writeFiles(files)`: resolve each root file, compute its
destination path under `destination`, and write it.  `canWrite` models
whether `mkdirp`/`writeFileSync` succeed for a destination path.  Returns
the written `(path, contents)` pairs and the `written`/`errors` counters
accumulated (including the errors counted inside `doFileInclude`). -/
def writeFiles (recursive omitSP : Bool) (fs : FS) (canWrite : List Char → Bool)
    (dest : List Char) (fuel : Nat) (files : List SourceFile) :
    List (List Char × List Char) × Nat × Nat :=
  files.foldl
    (fun acc f =>
      let r := doFileInclude recursive fs fuel ⟨f.directory, f.filename, none⟩ true
      let p := outputPath omitSP f
      if canWrite (joinPath dest p) then
        (acc.1 ++ [(joinPath dest p, r.1)], acc.2.1 + 1, acc.2.2 + r.2)
      else (acc.1, acc.2.1, acc.2.2 + r.2 + 1))
    ([], 0, 0)

/-- The pipeline of `init` after file discovery (the glob-based
`findFiles` and the CLI checks are the external collaborator): scan the
found candidates, drop the included fragments, resolve and write the
rest, mirroring the emptiness guards of the source. -/
def init (recursive omitSP : Bool) (fs : FS) (canWrite : List Char → Bool) (dest : List Char)
    (fuel : Nat) (foundFiles : List (List Char)) :
    List (List Char × List Char) × Nat × Nat :=
  let hasPattern := if foundFiles.length ≠ 0 then checkForPattern fs foundFiles else []
  let filesNotIncluded := if hasPattern.length ≠ 0 then removeIncludedFiles hasPattern else []
  if filesNotIncluded.length ≠ 0 then
    writeFiles recursive omitSP fs canWrite dest fuel filesNotIncluded
  else ([], 0, 0)

/-! Helper lemmas about paths. -/

theorem splitSlash_eq_single (p : List Char) (h : ∀ ch ∈ p, ch ≠ '/') : splitSlash p = [p] := by
  induction p with
  | nil => rfl
  | cons c cs ih =>
    have hc : c ≠ '/' := h c (by simp)
    have ihl : splitSlash cs = [cs] := ih fun ch hch => h ch (by simp [hch])
    simp [splitSlash, hc, ihl]

theorem getFilename_eq_self (p : List Char) (h : ∀ ch ∈ p, ch ≠ '/') : getFilename p = p := by
  simp [getFilename, splitSlash_eq_single p h]

theorem getDirectory_eq_nil (p : List Char) (h : ∀ ch ∈ p, ch ≠ '/') : getDirectory p = [] := by
  simp [getDirectory, splitSlash_eq_single p h, List.intercalate]

/-! Helper lemmas about prefixes and the matcher. -/

theorem isPrefixOf_true_iff (l s : List Char) : l.isPrefixOf s = true ↔ l <+: s := by
  exact List.isPrefixOf_iff_prefix

theorem isPrefixOf_append_self (l t : List Char) : l.isPrefixOf (l ++ t) = true :=
  (isPrefixOf_true_iff l (l ++ t)).mpr (List.prefix_append l t)

theorem cons_not_isPrefixOf {a c : Char} (h : c ≠ a) (as x : List Char) :
    (a :: as).isPrefixOf (c :: x) = false := by
  simp [List.isPrefixOf, beq_eq_false_iff_ne, Ne.symm h]

theorem includeLit_eq_cons : includeLit = '@' :: ("@include(".toList ++ [qch]) := rfl

theorem dirText_eq_cons (f : List Char) :
    dirText f = '@' :: (("@include(".toList ++ [qch]) ++ (f ++ closeLit)) := by
  simp [dirText, includeLit_eq_cons]

theorem getMatchesAux_eq_nil_of_no_at (fuel : Nat) (s : List Char)
    (h : ∀ ch ∈ s, ch ≠ '@') : getMatchesAux fuel s = [] := by
  induction fuel generalizing s with
  | zero => cases s <;> rfl
  | succ fuel2 ih =>
    cases s with
    | nil => rfl
    | cons c cs =>
      have hc : c ≠ '@' := h c (by simp)
      have hlit : includeLit.isPrefixOf (c :: cs) = false := by
        rw [includeLit_eq_cons]; exact cons_not_isPrefixOf hc _ _
      simp only [getMatchesAux, hlit, Bool.false_eq_true, if_false]
      exact ih cs fun ch hch => h ch (by simp [hch])

theorem getMatches_eq_nil_of_no_at (s : List Char) (h : ∀ ch ∈ s, ch ≠ '@') :
    getMatches s = [] := getMatchesAux_eq_nil_of_no_at s.length s h

theorem find?_reverse_range_eq_some (p : Nat → Bool) (t L : Nat) (ht : t ≤ L)
    (hp : p t = true) (hafter : ∀ j, t < j → j ≤ L → p j = false) :
    (List.range (L + 1)).reverse.find? p = some t := by
  induction L with
  | zero =>
    interval_cases t
    simp [List.range_succ, hp]
  | succ l ih =>
    rw [List.range_succ, List.reverse_append]
    rcases Nat.lt_or_ge t (l + 1) with hlt | hge
    · have hfail : p (l + 1) = false := hafter (l + 1) (by omega) (by omega)
      simpa [List.find?, hfail] using ih (by omega) fun j h1 h2 => hafter j h1 (by omega)
    · have : t = l + 1 := by omega
      subst this
      simp [List.find?, hp]

theorem takeWhile_append_all (p : Char → Bool) (l x : List Char) (h : ∀ ch ∈ l, p ch = true) :
    (l ++ x).takeWhile p = l ++ x.takeWhile p := by
  induction l with
  | nil => rfl
  | cons c cs ih =>
    have hc : p c = true := h c (by simp)
    simp [List.takeWhile, hc, ih fun ch hch => h ch (by simp [hch])]

theorem closeLit_not_isPrefixOf_of_head {x : List Char} (h : ∀ ch, x.head? = some ch → ch ≠ qch) :
    closeLit.isPrefixOf x = false := by
  cases x with
  | nil => rfl
  | cons c t =>
    have : closeLit = qch :: [')'] := rfl
    rw [this]
    exact cons_not_isPrefixOf (h c rfl) _ _

theorem greedyCapture_eq (f s : List Char)
    (hf : ∀ ch ∈ f, lineOk ch = true)
    (hs : ∀ ch ∈ s, ch ≠ qch) :
    greedyCapture (f ++ closeLit ++ s) = some f.length := by
  have hclose : ∀ ch ∈ closeLit, lineOk ch = true := by decide
  have htw : (f ++ closeLit ++ s).takeWhile lineOk
      = f ++ (closeLit ++ s.takeWhile lineOk) := by
    rw [List.append_assoc, takeWhile_append_all lineOk f _ hf,
      takeWhile_append_all lineOk closeLit _ hclose]
  have hL : ((f ++ closeLit ++ s).takeWhile lineOk).length
      = f.length + (2 + (s.takeWhile lineOk).length) := by
    rw [htw]; simp [closeLit]; omega
  unfold greedyCapture
  rw [hL]
  apply find?_reverse_range_eq_some _ f.length _ (by omega)
  · have hdrop : (f ++ closeLit ++ s).drop f.length = closeLit ++ s := by
      rw [List.append_assoc]; exact List.drop_left f (closeLit ++ s)
    rw [hdrop]
    exact isPrefixOf_append_self closeLit s
  · intro j h1 h2
    obtain ⟨m, rfl⟩ : ∃ m, j = f.length + m := ⟨j - f.length, by omega⟩
    have hdrop : (f ++ closeLit ++ s).drop (f.length + m) = (closeLit ++ s).drop m := by
      rw [List.append_assoc, ← List.drop_drop, List.drop_left]
    rw [hdrop]
    match m with
    | 0 => omega
    | 1 =>
      have : (closeLit ++ s).drop 1 = ')' :: s := rfl
      rw [this]
      exact cons_not_isPrefixOf (by decide) _ _
    | Nat.succ (Nat.succ m2) =>
      have : (closeLit ++ s).drop (m2 + 2) = s.drop m2 := rfl
      rw [this]
      apply closeLit_not_isPrefixOf_of_head
      intro ch hch
      apply hs
      apply List.drop_subset m2
      cases hd : s.drop m2 with
      | nil => rw [hd] at hch; exact absurd hch (by simp)
      | cons a t =>
        rw [hd] at hch
        simp at hch
        exact hch ▸ List.mem_cons_self a t

theorem getMatchesAux_single (p f s : List Char)
    (hp : ∀ ch ∈ p, ch ≠ '@')
    (hf : ∀ ch ∈ f, lineOk ch = true)
    (hs : ∀ ch ∈ s, ch ≠ '@' ∧ ch ≠ qch) :
    ∀ fuel, (p ++ dirText f ++ s).length ≤ fuel →
      getMatchesAux fuel (p ++ dirText f ++ s) = [⟨dirText f, f⟩] := by
  induction p with
  | nil =>
    intro fuel hfuel
    simp only [List.nil_append] at hfuel ⊢
    have hshape : dirText f ++ s = includeLit ++ (f ++ closeLit ++ s) := by
      simp [dirText, List.append_assoc]
    match fuel with
    | 0 =>
      exfalso
      have : 0 < (dirText f ++ s).length := by simp [dirText, includeLit]
      omega
    | Nat.succ fuel2 =>
      have hcons : dirText f ++ s
          = '@' :: (("@include(".toList ++ [qch]) ++ (f ++ closeLit ++ s)) := by
        rw [hshape, includeLit_eq_cons]; rfl
      rw [hcons]
      rw [getMatchesAux]
      have hlit : includeLit.isPrefixOf
          ('@' :: (("@include(".toList ++ [qch]) ++ (f ++ closeLit ++ s))) = true := by
        rw [includeLit_eq_cons]
        have : '@' :: (("@include(".toList ++ [qch]) ++ (f ++ closeLit ++ s))
            = ('@' :: ("@include(".toList ++ [qch])) ++ (f ++ closeLit ++ s) := rfl
        rw [this]
        exact isPrefixOf_append_self _ _
      rw [hlit]
      have hdrop : ('@' :: (("@include(".toList ++ [qch]) ++ (f ++ closeLit ++ s))).drop
          includeLit.length = f ++ closeLit ++ s := by
        have : '@' :: (("@include(".toList ++ [qch]) ++ (f ++ closeLit ++ s))
            = includeLit ++ (f ++ closeLit ++ s) := by rw [includeLit_eq_cons]; rfl
        rw [this]
        exact List.drop_left _ _
      rw [hdrop]
      have hg : greedyCapture (f ++ closeLit ++ s) = some f.length :=
        greedyCapture_eq f s hf fun ch hch => (hs ch hch).2
      rw [hg]
      simp only []
      have htake : (f ++ closeLit ++ s).take f.length = f := by
        rw [List.append_assoc]; exact List.take_left f _
      have hdrop2 : (f ++ closeLit ++ s).drop (f.length + 2) = s := by
        have : f.length + 2 = (f ++ closeLit).length := by simp [closeLit]
        rw [this]; exact List.drop_left _ _
      rw [htake, hdrop2]
      have hnil : getMatchesAux fuel2 s = [] :=
        getMatchesAux_eq_nil_of_no_at fuel2 s fun ch hch => (hs ch hch).1
      rw [hnil]
      simp [dirText]
  | cons c p2 ih =>
    intro fuel hfuel
    have hc : c ≠ '@' := hp c (by simp)
    match fuel with
    | 0 => exfalso; simp at hfuel
    | Nat.succ fuel2 =>
      have : (c :: p2) ++ dirText f ++ s = c :: (p2 ++ dirText f ++ s) := by simp
      rw [this, getMatchesAux]
      have hlit : includeLit.isPrefixOf (c :: (p2 ++ dirText f ++ s)) = false := by
        rw [includeLit_eq_cons]; exact cons_not_isPrefixOf hc _ _
      rw [hlit]
      simp only [Bool.false_eq_true, if_false]
      apply ih (fun ch hch => hp ch (by simp [hch])) fuel2
      have : ((c :: p2) ++ dirText f ++ s).length = (p2 ++ dirText f ++ s).length + 1 := by simp
      omega

theorem getMatches_single (p f s : List Char)
    (hp : ∀ ch ∈ p, ch ≠ '@')
    (hf : ∀ ch ∈ f, lineOk ch = true)
    (hs : ∀ ch ∈ s, ch ≠ '@' ∧ ch ≠ qch) :
    getMatches (p ++ dirText f ++ s) = [⟨dirText f, f⟩] :=
  getMatchesAux_single p f s hp hf hs _ le_rfl

/-! Helper lemmas about `firstIdx`, `getSubstitution` and `jsReplace`. -/

theorem firstIdx_dirText (p f t : List Char) (hp : ∀ ch ∈ p, ch ≠ '@') :
    firstIdx (p ++ (dirText f ++ t)) (dirText f) = some p.length := by
  induction p with
  | nil =>
    have h : (dirText f).isPrefixOf (dirText f ++ t) = true := isPrefixOf_append_self _ _
    simp [firstIdx, h]
  | cons c p2 ih =>
    have hc : c ≠ '@' := hp c (by simp)
    have hlit : (dirText f).isPrefixOf (c :: (p2 ++ (dirText f ++ t))) = false := by
      rw [dirText_eq_cons]; exact cons_not_isPrefixOf hc _ _
    have : (c :: p2) ++ (dirText f ++ t) = c :: (p2 ++ (dirText f ++ t)) := rfl
    rw [this, firstIdx, hlit]
    simp [ih fun ch hch => hp ch (by simp [hch])]

theorem firstIdx_take_drop (s d : List Char) (i : Nat) (h : firstIdx s d = some i) :
    s = s.take i ++ d ++ s.drop (i + d.length) := by
  induction s generalizing i with
  | nil =>
    by_cases hd : d.isPrefixOf ([] : List Char)
    · have hd2 : d = [] := by
        have := (isPrefixOf_true_iff d []).mp hd
        simpa using this
      rw [firstIdx] at h
      simp [hd] at h
      subst h
      simp [hd2]
    · rw [firstIdx] at h
      simp [hd] at h
  | cons c t ih =>
    by_cases hd : d.isPrefixOf (c :: t)
    · rw [firstIdx] at h
      simp [hd] at h
      subst h
      obtain ⟨u, hu⟩ := (isPrefixOf_true_iff d (c :: t)).mp hd
      simp only [List.take_zero, List.nil_append, Nat.zero_add]
      rw [← hu]
      simp [List.drop_left]
    · rw [firstIdx] at h
      simp [hd] at h
      obtain ⟨i2, hi2, rfl⟩ := h
      have := ih i2 hi2
      calc c :: t = c :: (t.take i2 ++ d ++ t.drop (i2 + d.length)) := by rw [← this]
        _ = (c :: t).take (i2 + 1) ++ d ++ (c :: t).drop (i2 + 1 + d.length) := by
            have h1 : (c :: t).take (i2 + 1) = c :: t.take i2 := rfl
            have h2 : (c :: t).drop (i2 + 1 + d.length) = t.drop (i2 + d.length) := by
              have he : i2 + 1 + d.length = (i2 + d.length) + 1 := by omega
              rw [he]
              rfl
            rw [h1, h2]
            simp

theorem getSubstitution_no_dollar (m b a : List Char) :
    ∀ r : List Char, (∀ ch ∈ r, ch ≠ '$') → getSubstitution m b a r = r := by
  intro r
  induction r with
  | nil => intro _; rfl
  | cons c t ih =>
    intro h
    have hc : c ≠ '$' := h c (by simp)
    conv_lhs => rw [getSubstitution.eq_def]
    simp [hc, ih fun ch hch => h ch (by simp [hch])]

theorem jsReplace_some (s d r : List Char) (i : Nat) (h : firstIdx s d = some i) :
    jsReplace s d r
      = s.take i ++ getSubstitution d (s.take i) (s.drop (i + d.length)) r
        ++ s.drop (i + d.length) := by
  simp [jsReplace, h]

theorem jsReplace_none (s d r : List Char) (h : firstIdx s d = none) :
    jsReplace s d r = s := by
  simp [jsReplace, h]

theorem jsReplace_dirText (p f t r : List Char)
    (hp : ∀ ch ∈ p, ch ≠ '@') (hr : ∀ ch ∈ r, ch ≠ '$') :
    jsReplace (p ++ (dirText f ++ t)) (dirText f) r = p ++ (r ++ t) := by
  rw [jsReplace_some _ _ _ p.length (firstIdx_dirText p f t hp)]
  have htake : (p ++ (dirText f ++ t)).take p.length = p := List.take_left p _
  have hdrop : (p ++ (dirText f ++ t)).drop (p.length + (dirText f).length) = t := by
    rw [← List.drop_drop, List.drop_left]
    exact List.drop_left _ _
  rw [htake, hdrop, getSubstitution_no_dollar _ _ _ r hr]
  simp

theorem firstIdx_eq_none_iff (s d : List Char) :
    firstIdx s d = none ↔ ∀ j, d.isPrefixOf (s.drop j) = false := by
  induction s with
  | nil =>
    constructor
    · intro h j
      rw [firstIdx] at h
      by_cases hd : d.isPrefixOf ([] : List Char)
      · simp [hd] at h
      · rw [List.drop_nil]
        exact Bool.of_not_eq_true hd
    · intro h
      rw [firstIdx]
      have h0 : d.isPrefixOf ([] : List Char) = false := h 0
      simp [h0]
  | cons c t ih =>
    constructor
    · intro h j
      rw [firstIdx] at h
      by_cases hd : d.isPrefixOf (c :: t)
      · simp [hd] at h
      · simp only [hd, Bool.false_eq_true, if_false] at h
        have hnone : firstIdx t d = none := by
          cases hfi : firstIdx t d with
          | none => rfl
          | some v => rw [hfi] at h; simp at h
        cases j with
        | zero => exact Bool.of_not_eq_true hd
        | succ j2 => exact (ih.mp hnone) j2
    · intro h
      rw [firstIdx]
      have h0 : d.isPrefixOf (c :: t) = false := h 0
      simp only [h0, Bool.false_eq_true, if_false]
      have hnone : firstIdx t d = none := ih.mpr fun j => h (j + 1)
      rw [hnone]
      rfl

theorem firstIdx_eq_none_of_bounded (s d : List Char) (hd : d ≠ [])
    (h : ∀ j < s.length, d.isPrefixOf (s.drop j) = false) :
    firstIdx s d = none := by
  rw [firstIdx_eq_none_iff]
  intro j
  by_cases hj : j < s.length
  · exact h j hj
  · have : s.drop j = [] := List.drop_eq_nil_of_le (by omega)
    rw [this]
    cases d with
    | nil => exact absurd rfl hd
    | cons a t => rfl

/-! Unfolding lemmas for the resolver. -/

theorem doFileInclude_ok (recursive : Bool) (fs : FS) (fuel : Nat) (file : IncFile)
    (insertNF : Bool) (c : List Char)
    (h : fs (joinPath file.directory file.filename) = ReadRes.ok c) :
    doFileInclude recursive fs (fuel + 1) file insertNF
      = doFileIncludeLoop (fun mf => doFileInclude recursive fs fuel mf true) fs recursive
          file insertNF c (getMatches c) 0 := by
  rw [doFileInclude, h]

theorem doFileInclude_readfail (recursive : Bool) (fs : FS) (fuel : Nat) (file : IncFile)
    (insertNF : Bool)
    (h : (fs (joinPath file.directory file.filename)).isOk = false) :
    doFileInclude recursive fs (fuel + 1) file insertNF
      = doFileIncludeCatch file insertNF [] 0 := by
  cases hr : fs (joinPath file.directory file.filename) with
  | ok c => rw [hr] at h; simp [ReadRes.isOk] at h
  | eisdir => rw [doFileInclude, hr]
  | err => rw [doFileInclude, hr]

theorem doFileIncludeLoop_nil (recurse : IncFile → List Char × Nat) (fs : FS)
    (recursive : Bool) (file : IncFile) (insertNF : Bool) (contents : List Char) (errs : Nat) :
    doFileIncludeLoop recurse fs recursive file insertNF contents [] errs = (contents, errs) :=
  rfl

theorem doFileIncludeLoop_cons_rec (recurse : IncFile → List Char × Nat) (fs : FS)
    (file : IncFile) (insertNF : Bool) (contents : List Char) (m : DirectiveMatch)
    (rest : List DirectiveMatch) (errs : Nat) :
    doFileIncludeLoop recurse fs true file insertNF contents (m :: rest) errs
      = doFileIncludeLoop recurse fs true file insertNF
          (jsReplace contents m.string (recurse ⟨matchDir file, m.filename, some m.string⟩).1)
          rest (errs + (recurse ⟨matchDir file, m.filename, some m.string⟩).2) := by
  rw [doFileIncludeLoop]
  simp

theorem doFileIncludeLoop_cons_ok (recurse : IncFile → List Char × Nat) (fs : FS)
    (file : IncFile) (insertNF : Bool) (contents : List Char) (m : DirectiveMatch)
    (rest : List DirectiveMatch) (errs : Nat) (mc : List Char)
    (h : fs (joinPath (matchDir file) m.filename) = ReadRes.ok mc) :
    doFileIncludeLoop recurse fs false file insertNF contents (m :: rest) errs
      = doFileIncludeLoop recurse fs false file insertNF
          (jsReplace contents m.string mc) rest errs := by
  rw [doFileIncludeLoop]
  simp [h]

theorem doFileIncludeLoop_cons_fail (recurse : IncFile → List Char × Nat) (fs : FS)
    (file : IncFile) (insertNF : Bool) (contents : List Char) (m : DirectiveMatch)
    (rest : List DirectiveMatch) (errs : Nat)
    (h : (fs (joinPath (matchDir file) m.filename)).isOk = false) :
    doFileIncludeLoop recurse fs false file insertNF contents (m :: rest) errs
      = doFileIncludeCatch file insertNF contents errs := by
  rw [doFileIncludeLoop]
  cases hr : fs (joinPath (matchDir file) m.filename) with
  | ok c => rw [hr] at h; simp [ReadRes.isOk] at h
  | eisdir => simp
  | err => simp

/-! Claim C8. -/

/-- C8: for every file whose content contains zero include directives,
`doFileInclude` returns that content unchanged (and records no error):
the match loop runs over an empty list, so the contents read from disk
are returned as-is. -/
theorem claim_c8_no_directives_identity (recursive : Bool) (fs : FS) (fuel : Nat)
    (file : IncFile) (insertNF : Bool) (c : List Char)
    (hread : fs (joinPath file.directory file.filename) = ReadRes.ok c)
    (hnone : getMatches c = []) :
    doFileInclude recursive fs (fuel + 1) file insertNF = (c, 0) := by
  rw [doFileInclude_ok recursive fs fuel file insertNF c hread, hnone]
  rfl

/-- Witness for C8 at a concrete directive-free file. -/
theorem claim_c8_witness :
    doFileInclude true
      (fun p => if p = "src/plain.html".toList then ReadRes.ok "hello".toList else ReadRes.err)
      1 ⟨"src".toList, "plain.html".toList, none⟩ true = ("hello".toList, 0) :=
  claim_c8_no_directives_identity true
    (fun p => if p = "src/plain.html".toList then ReadRes.ok "hello".toList else ReadRes.err)
    0 ⟨"src".toList, "plain.html".toList, none⟩ true "hello".toList (by decide) (by decide)

/-! Claim C7. -/

/-- C7: the destination path is `file.filename` when `omitSourceParent`
is true and `file.directory` joined with `file.filename` when it is
false, with the spec's concrete example for a root
`{directory: src/pages, filename: pages/index.html}`. -/
theorem claim_c7_output_path :
    (∀ f : SourceFile, outputPath true f = f.filename) ∧
    (∀ f : SourceFile, outputPath false f = joinPath f.directory f.filename) ∧
    outputPath true ⟨"src/pages".toList, "pages/index.html".toList, []⟩
      = "pages/index.html".toList ∧
    outputPath false ⟨"src/pages".toList, "pages/index.html".toList, []⟩
      = "src/pages/pages/index.html".toList :=
  ⟨fun _ => rfl, fun _ => rfl, by decide, by decide⟩

/-! Claim C1. -/

/-- The filesystem of the C1 failing input: a root whose single directive
references a file that cannot be read. -/
def fsC1 : FS := fun p =>
  if p = "src/index.html".toList then
    ReadRes.ok ("x".toList ++ dirText "missing.html".toList ++ "y".toList)
  else ReadRes.err

/-- C1 (code bug): resolving a root whose directive references an
unreadable file, with the not-found placeholder enabled (the default),
replaces the directive with the EMPTY string, not with
`File not found: missing.html` — the recursive call's catch block runs
`contents.replace` while `contents` is still empty, so the placeholder
only ever reaches the log; the error counter is incremented exactly
once.  With the placeholder disabled the result is identical: the
literal directive text does NOT remain either.  The last two conjuncts
record that this output differs both from the placeholder-substituted
output the claim requires and from the untouched-literal output it
requires in the disabled case. -/
theorem claim_c1_missing_include_code_bug :
    doFileInclude true fsC1 3 ⟨"src".toList, "index.html".toList, none⟩ true
      = ("xy".toList, 1) ∧
    doFileInclude true fsC1 3 ⟨"src".toList, "index.html".toList, none⟩ false
      = ("xy".toList, 1) ∧
    "xy".toList ≠ "x".toList ++ notFoundText "missing.html".toList ++ "y".toList ∧
    "xy".toList ≠ "x".toList ++ dirText "missing.html".toList ++ "y".toList :=
  ⟨by decide, by decide, by decide, by decide⟩

/-! Further resolver helpers shared by several developments. -/

theorem doFileInclude_no_matches (recursive : Bool) (fs : FS) (fuel : Nat)
    (file : IncFile) (insertNF : Bool) (c : List Char)
    (hread : fs (joinPath file.directory file.filename) = ReadRes.ok c)
    (hnone : getMatches c = []) :
    doFileInclude recursive fs (fuel + 1) file insertNF = (c, 0) := by
  rw [doFileInclude_ok recursive fs fuel file insertNF c hread, hnone]
  rfl

theorem jsReplace_exact (pp dd tt rr : List Char)
    (h : firstIdx (pp ++ (dd ++ tt)) dd = some pp.length)
    (hr : ∀ ch ∈ rr, ch ≠ '$') :
    jsReplace (pp ++ (dd ++ tt)) dd rr = pp ++ (rr ++ tt) := by
  rw [jsReplace_some _ _ _ _ h]
  have htake : (pp ++ (dd ++ tt)).take pp.length = pp := List.take_left _ _
  have hdrop : (pp ++ (dd ++ tt)).drop (pp.length + dd.length) = tt := by
    rw [← List.drop_drop, List.drop_left, List.drop_left]
  rw [htake, hdrop, getSubstitution_no_dollar _ _ _ rr hr]
  simp

theorem doFileIncludeLoop_ok_steps (recurse : IncFile → List Char × Nat) (fs : FS)
    (file : IncFile) (insertNF : Bool) (frag : DirectiveMatch → List Char) :
    ∀ (okms ms2 : List DirectiveMatch) (contents : List Char) (errs : Nat),
      (∀ m ∈ okms, fs (joinPath (matchDir file) m.filename) = ReadRes.ok (frag m)) →
      doFileIncludeLoop recurse fs false file insertNF contents (okms ++ ms2) errs
        = doFileIncludeLoop recurse fs false file insertNF
            (okms.foldl (fun x m => jsReplace x m.string (frag m)) contents) ms2 errs := by
  intro okms
  induction okms with
  | nil => intro ms2 contents errs _; rfl
  | cons m ms ih =>
    intro ms2 contents errs h
    rw [List.cons_append, doFileIncludeLoop_cons_ok _ _ _ _ _ _ _ _ _ (h m (by simp))]
    rw [ih ms2 _ errs fun x hx => h x (by simp [hx])]
    rfl

/-! Claim C10. -/

/-- C10: with `includeRecursive = false`, when a first-level referenced
file cannot be read, the substitution loop throws into the catch block
at the point of failure: the returned contents are the original contents
with only the matches BEFORE the failing one substituted (the failing
directive and all later ones are left unsubstituted), further modified
only by the catch block's replacement of the text `undefined` (coming
from the root file's absent `string` property) with
`File not found: <root filename>` — a no-op whenever `undefined` does
not occur, as the second conjunct states — and the error counter is
incremented exactly once even when several referenced files are
missing. -/
theorem claim_c10_nonrecursive_abort (fs : FS) (fuel : Nat) (file : IncFile) (c : List Char)
    (okms : List DirectiveMatch) (bad : DirectiveMatch) (restms : List DirectiveMatch)
    (frag : DirectiveMatch → List Char)
    (hroot : file.string = none)
    (hread : fs (joinPath file.directory file.filename) = ReadRes.ok c)
    (hms : getMatches c = okms ++ bad :: restms)
    (hok : ∀ m ∈ okms, fs (joinPath (matchDir file) m.filename) = ReadRes.ok (frag m))
    (hbad : (fs (joinPath (matchDir file) bad.filename)).isOk = false) :
    doFileInclude false fs (fuel + 1) file true
      = (jsReplace (okms.foldl (fun x m => jsReplace x m.string (frag m)) c) undefinedLit
          (notFoundText file.filename), 1) ∧
    ((∀ j < (okms.foldl (fun x m => jsReplace x m.string (frag m)) c).length,
        undefinedLit.isPrefixOf
          ((okms.foldl (fun x m => jsReplace x m.string (frag m)) c).drop j) = false) →
      (doFileInclude false fs (fuel + 1) file true).1
        = okms.foldl (fun x m => jsReplace x m.string (frag m)) c) := by
  have hmain : doFileInclude false fs (fuel + 1) file true
      = (jsReplace (okms.foldl (fun x m => jsReplace x m.string (frag m)) c) undefinedLit
          (notFoundText file.filename), 1) := by
    rw [doFileInclude_ok false fs fuel file true c hread, hms,
      doFileIncludeLoop_ok_steps _ fs file true frag okms (bad :: restms) c 0 hok,
      doFileIncludeLoop_cons_fail _ _ _ _ _ _ _ _ hbad]
    simp [doFileIncludeCatch, hroot]
  refine ⟨hmain, fun hnb => ?_⟩
  rw [hmain]
  exact jsReplace_none _ _ _
    (firstIdx_eq_none_of_bounded _ undefinedLit (by decide) hnb)

/-- The filesystem of the C10 witness: a root with three directives, the
first resolvable, the last two missing. -/
def fsC10 : FS := fun p =>
  if p = "src/page.html".toList then
    ReadRes.ok ("A".toList ++ dirText "ok.html".toList ++ "B\nC".toList
      ++ dirText "gone.html".toList ++ "D\nE".toList
      ++ dirText "alsogone.html".toList ++ "F".toList)
  else if p = "src/ok.html".toList then ReadRes.ok "OK".toList
  else ReadRes.err

/-- Witness for C10: the first directive is substituted, the failing one
and the one after it remain literally, one single error is counted. -/
theorem claim_c10_witness :
    doFileInclude false fsC10 2 ⟨"src".toList, "page.html".toList, none⟩ true
      = ("AOKB\nC".toList ++ dirText "gone.html".toList ++ "D\nE".toList
          ++ dirText "alsogone.html".toList ++ "F".toList, 1) := by
  have h := claim_c10_nonrecursive_abort fsC10 1 ⟨"src".toList, "page.html".toList, none⟩
    ("A".toList ++ dirText "ok.html".toList ++ "B\nC".toList
      ++ dirText "gone.html".toList ++ "D\nE".toList
      ++ dirText "alsogone.html".toList ++ "F".toList)
    [⟨dirText "ok.html".toList, "ok.html".toList⟩]
    ⟨dirText "gone.html".toList, "gone.html".toList⟩
    [⟨dirText "alsogone.html".toList, "alsogone.html".toList⟩]
    (fun _ => "OK".toList)
    rfl (by decide) (by decide) (by decide) (by decide)
  rw [h.1]
  decide

/-! Claim C5. -/

/-- The filesystem of the C5 counterexample: the fragment's contents are
the two characters dollar-ampersand, which JavaScript `replace`
interprets as "the matched text". -/
def fsC5 : FS := fun p =>
  if p = "src/a.html".toList then
    ReadRes.ok ("x".toList ++ dirText "f.html".toList ++ "y".toList)
  else if p = "src/f.html".toList then ReadRes.ok ['$', '&']
  else ReadRes.err

/-- Counterexample to C5 as stated: the directive is NOT replaced by the
resolved fragment content.  The fragment resolves to the dollar-ampersand
string, but `contents.replace` interprets it as a replacement pattern and
re-inserts the matched directive text, so the output equals the original
content rather than the content with the fragment substituted. -/
theorem claim_c5_counterexample :
    doFileInclude true fsC5 3 ⟨"src".toList, "a.html".toList, none⟩ true
      = ("x".toList ++ dirText "f.html".toList ++ "y".toList, 0) ∧
    ("x".toList ++ dirText "f.html".toList ++ "y".toList : List Char)
      ≠ "x".toList ++ ['$', '&'] ++ "y".toList :=
  ⟨by decide, by decide⟩

/-- C5 as amended: each match consumes the FIRST REMAINING occurrence of
its literal text, one replacement per match in source order (not a
global replace-all), with the resolved fragment content inserted
verbatim whenever it contains no dollar character (in general it is
passed through the JavaScript replacement-pattern substitution).  Stated
for two identical directives referencing the same fragment: the first
match consumes the first occurrence, the second match the (originally)
second one, giving the one-to-one positional correspondence. -/
theorem claim_c5_replacement_amended (fs : FS) (fuel : Nat) (file : IncFile)
    (p q r fc fname d : List Char)
    (hdir : getDirectory file.filename = [])
    (hread : fs (joinPath file.directory file.filename)
      = ReadRes.ok (p ++ (d ++ (q ++ (d ++ r)))))
    (hms : getMatches (p ++ (d ++ (q ++ (d ++ r)))) = [⟨d, fname⟩, ⟨d, fname⟩])
    (hfrag : fs (joinPath file.directory fname) = ReadRes.ok fc)
    (hfc : getMatches fc = [])
    (hnd : ∀ ch ∈ fc, ch ≠ '$')
    (h1 : firstIdx (p ++ (d ++ (q ++ (d ++ r)))) d = some p.length)
    (h2 : firstIdx ((p ++ (fc ++ q)) ++ (d ++ r)) d = some (p ++ (fc ++ q)).length) :
    doFileInclude true fs (fuel + 2) file true = ((p ++ (fc ++ q)) ++ (fc ++ r), 0) := by
  have hmdir : matchDir file = file.directory := by simp [matchDir, hdir]
  have hrec : doFileInclude true fs (fuel + 1) ⟨matchDir file, fname, some d⟩ true
      = (fc, 0) := by
    rw [hmdir]
    exact doFileInclude_no_matches true fs fuel _ true fc hfrag hfc
  rw [doFileInclude_ok true fs (fuel + 1) file true _ hread, hms,
    doFileIncludeLoop_cons_rec, hrec]
  have e1 : jsReplace (p ++ (d ++ (q ++ (d ++ r)))) d fc = p ++ (fc ++ (q ++ (d ++ r))) :=
    jsReplace_exact p d (q ++ (d ++ r)) fc h1 hnd
  simp only [e1]
  rw [doFileIncludeLoop_cons_rec, hrec]
  have hassoc : p ++ (fc ++ (q ++ (d ++ r))) = (p ++ (fc ++ q)) ++ (d ++ r) := by
    simp [List.append_assoc]
  have e2 : jsReplace (p ++ (fc ++ (q ++ (d ++ r)))) d fc = (p ++ (fc ++ q)) ++ (fc ++ r) := by
    rw [hassoc]
    exact jsReplace_exact (p ++ (fc ++ q)) d r fc h2 hnd
  simp only [e2]
  rfl

/-- The filesystem of the C5 witness: a root containing the same
directive twice, on two lines. -/
def fsC5w : FS := fun p =>
  if p = "src/a.html".toList then
    ReadRes.ok ("A".toList ++ (dirText "f.html".toList
      ++ ("B\nC".toList ++ (dirText "f.html".toList ++ "D".toList))))
  else if p = "src/f.html".toList then ReadRes.ok "FF".toList
  else ReadRes.err

/-- Witness for the amended C5: both occurrences of the repeated
identical directive are replaced, each by one match, in order. -/
theorem claim_c5_witness :
    doFileInclude true fsC5w 3 ⟨"src".toList, "a.html".toList, none⟩ true
      = (("A".toList ++ ("FF".toList ++ "B\nC".toList)) ++ ("FF".toList ++ "D".toList), 0) :=
  claim_c5_replacement_amended fsC5w 1 ⟨"src".toList, "a.html".toList, none⟩
    "A".toList "B\nC".toList "D".toList "FF".toList "f.html".toList
    (dirText "f.html".toList)
    (by decide) (by decide) (by decide) (by decide) (by decide) (by decide)
    (by decide) (by decide)

/-! Claim C3: an include chain of arbitrary depth. -/

/-- The contents of the i-th file of an include chain of depth `n`: file
`i < n` holds a single directive referencing file `i + 1` between the
texts `pre i` and `post i`; file `n` holds `leaf`. -/
def chainContent (n : Nat) (fn pre post : Nat → List Char) (leaf : List Char) (i : Nat) :
    List Char :=
  if i = n then leaf else pre i ++ (dirText (fn (i + 1)) ++ post i)

/-- The fully flattened text of the chain from file `i`, where `k` is the
remaining depth `n - i`. -/
def flattenFrom (pre post : Nat → List Char) (leaf : List Char) : Nat → Nat → List Char
  | 0, _ => leaf
  | k + 1, i => pre i ++ (flattenFrom pre post leaf k (i + 1) ++ post i)

theorem flattenFrom_chars (pre post : Nat → List Char) (leaf : List Char)
    (hl : ∀ ch ∈ leaf, ch ≠ '@' ∧ ch ≠ '$') :
    ∀ k i,
      (∀ j, i ≤ j → j < i + k →
        (∀ ch ∈ pre j, ch ≠ '@' ∧ ch ≠ '$') ∧ (∀ ch ∈ post j, ch ≠ '@' ∧ ch ≠ '$')) →
      ∀ ch ∈ flattenFrom pre post leaf k i, ch ≠ '@' ∧ ch ≠ '$' := by
  intro k
  induction k with
  | zero => intro i _ ch hch; exact hl ch hch
  | succ k2 ih =>
    intro i hj ch hch
    simp only [flattenFrom, List.mem_append] at hch
    rcases hch with h | h | h
    · exact (hj i le_rfl (by omega)).1 ch h
    · exact ih (i + 1) (fun j h1 h2 => hj j (by omega) (by omega)) ch h
    · exact (hj i le_rfl (by omega)).2 ch h

theorem chain_resolve (n : Nat) (dir leaf : List Char) (fn pre post : Nat → List Char)
    (fs : FS)
    (hfn : ∀ i, i ≤ n → ∀ ch ∈ fn i, lineOk ch = true ∧ ch ≠ '/' ∧ ch ≠ '$')
    (hpre : ∀ i, i < n → ∀ ch ∈ pre i, ch ≠ '@' ∧ ch ≠ qch ∧ ch ≠ '$')
    (hpost : ∀ i, i < n → ∀ ch ∈ post i, ch ≠ '@' ∧ ch ≠ qch ∧ ch ≠ '$')
    (hleaf : ∀ ch ∈ leaf, ch ≠ '@' ∧ ch ≠ '$')
    (hfiles : ∀ i, i ≤ n → fs (joinPath dir (fn i))
      = ReadRes.ok (chainContent n fn pre post leaf i)) :
    ∀ k i, i + k = n → ∀ st : Option (List Char),
      doFileInclude true fs (k + 1) ⟨dir, fn i, st⟩ true
        = (flattenFrom pre post leaf k i, 0) := by
  intro k
  induction k with
  | zero =>
    intro i hi st
    have hin : i = n := by omega
    subst hin
    have hread := hfiles i le_rfl
    have hcc : chainContent i fn pre post leaf i = leaf := by simp [chainContent]
    rw [hcc] at hread
    exact doFileInclude_no_matches true fs 0 _ true leaf hread
      (getMatches_eq_nil_of_no_at leaf fun ch hch => (hleaf ch hch).1)
  | succ k2 ih =>
    intro i hi st
    have hin : i < n := by omega
    have hcc : chainContent n fn pre post leaf i
        = pre i ++ (dirText (fn (i + 1)) ++ post i) := by
      rw [chainContent, if_neg (by omega)]
    have hread := hfiles i (by omega)
    rw [hcc] at hread
    have hms : getMatches (pre i ++ (dirText (fn (i + 1)) ++ post i))
        = [⟨dirText (fn (i + 1)), fn (i + 1)⟩] := by
      have hgm := getMatches_single (pre i) (fn (i + 1)) (post i)
        (fun ch hch => (hpre i hin ch hch).1)
        (fun ch hch => (hfn (i + 1) (by omega) ch hch).1)
        (fun ch hch => ⟨(hpost i hin ch hch).1, (hpost i hin ch hch).2.1⟩)
      rw [List.append_assoc] at hgm
      exact hgm
    have hmdir : matchDir ⟨dir, fn i, st⟩ = dir := by
      simp [matchDir,
        getDirectory_eq_nil (fn i) fun ch hch => (hfn i (by omega) ch hch).2.1]
    rw [doFileInclude_ok true fs (k2 + 1) _ true _ hread, hms,
      doFileIncludeLoop_cons_rec]
    have hrec : doFileInclude true fs (k2 + 1)
        ⟨matchDir ⟨dir, fn i, st⟩, fn (i + 1), some (dirText (fn (i + 1)))⟩ true
        = (flattenFrom pre post leaf k2 (i + 1), 0) := by
      rw [hmdir]
      exact ih (i + 1) (by omega) _
    rw [hrec]
    have hflat : ∀ ch ∈ flattenFrom pre post leaf k2 (i + 1), ch ≠ '@' ∧ ch ≠ '$' := by
      apply flattenFrom_chars pre post leaf hleaf k2 (i + 1)
      intro j h1 h2
      exact ⟨fun ch hch => ⟨(hpre j (by omega) ch hch).1, (hpre j (by omega) ch hch).2.2⟩,
        fun ch hch => ⟨(hpost j (by omega) ch hch).1, (hpost j (by omega) ch hch).2.2⟩⟩
    have e1 : jsReplace (pre i ++ (dirText (fn (i + 1)) ++ post i)) (dirText (fn (i + 1)))
        (flattenFrom pre post leaf k2 (i + 1))
        = pre i ++ (flattenFrom pre post leaf k2 (i + 1) ++ post i) :=
      jsReplace_exact _ _ _ _
        (firstIdx_dirText (pre i) (fn (i + 1)) (post i)
          fun ch hch => (hpre i hin ch hch).1)
        (fun ch hch => (hflat ch hch).2)
    rw [e1]
    rw [doFileIncludeLoop_nil]
    rfl

theorem includeLit_no_dollar : ∀ ch ∈ includeLit, ch ≠ '$' := by decide

theorem closeLit_no_dollar : ∀ ch ∈ closeLit, ch ≠ '$' := by decide

theorem dirText_no_dollar (f : List Char) (hf : ∀ ch ∈ f, ch ≠ '$') :
    ∀ ch ∈ dirText f, ch ≠ '$' := by
  intro ch hch
  simp only [dirText, List.mem_append] at hch
  rcases hch with (h | h) | h
  · exact includeLit_no_dollar ch h
  · exact hf ch h
  · exact closeLit_no_dollar ch h

/-- The filesystem of the C3 counterexample: `a.html` includes `b.html`,
whose contents are its own directive to `c.html` followed by
dollar-ampersand; `c.html` holds `C`. -/
def fsC3 : FS := fun p =>
  if p = "src/a.html".toList then ReadRes.ok (dirText "b.html".toList)
  else if p = "src/b.html".toList then
    ReadRes.ok (dirText "c.html".toList ++ ['$', '&'])
  else if p = "src/c.html".toList then ReadRes.ok "C".toList
  else ReadRes.err

/-- Counterexample to C3 as stated: with `includeRecursive = true` and
every referenced file readable (zero errors), the output still contains
a literal `@@include(` directive whose path resolves — the fragment's
dollar-ampersand is interpreted by `contents.replace` and re-inserts the
matched directive text after the nested resolution already happened. -/
theorem claim_c3_counterexample :
    doFileInclude true fsC3 4 ⟨"src".toList, "a.html".toList, none⟩ true
      = ("C".toList ++ dirText "b.html".toList, 0) ∧
    getMatches ("C".toList ++ dirText "b.html".toList)
      = [⟨dirText "b.html".toList, "b.html".toList⟩] ∧
    fsC3 (joinPath "src".toList "b.html".toList)
      = ReadRes.ok (dirText "c.html".toList ++ ['$', '&']) :=
  ⟨by decide, by decide, by decide⟩

/-- C3 as amended: over an include chain of arbitrary depth `n` whose
surrounding texts contain no `@`, no quote and no `$` (dollar sequences
in fragment contents are interpreted by the JavaScript replacement and
can re-insert directive text, see the counterexample), resolution with
`includeRecursive = true` produces the fully flattened text — nested
directives expanded to unbounded depth, and no `@@include(` token (no
directive match at all) remains; with `includeRecursive = false` and a
chain of depth at least 2, only the first-level fragment's raw contents
are inlined once, and that fragment's own directive remains literally
present in the output. -/
theorem claim_c3_flattening_amended (n fuelNR : Nat) (dir leaf : List Char)
    (fn pre post : Nat → List Char) (fs : FS)
    (hfn : ∀ i, i ≤ n → ∀ ch ∈ fn i, lineOk ch = true ∧ ch ≠ '/' ∧ ch ≠ '$')
    (hpre : ∀ i, i < n → ∀ ch ∈ pre i, ch ≠ '@' ∧ ch ≠ qch ∧ ch ≠ '$')
    (hpost : ∀ i, i < n → ∀ ch ∈ post i, ch ≠ '@' ∧ ch ≠ qch ∧ ch ≠ '$')
    (hleaf : ∀ ch ∈ leaf, ch ≠ '@' ∧ ch ≠ '$')
    (hfiles : ∀ i, i ≤ n → fs (joinPath dir (fn i))
      = ReadRes.ok (chainContent n fn pre post leaf i)) :
    (doFileInclude true fs (n + 1) ⟨dir, fn 0, none⟩ true
        = (flattenFrom pre post leaf n 0, 0)
      ∧ getMatches (flattenFrom pre post leaf n 0) = []) ∧
    (2 ≤ n →
      doFileInclude false fs (fuelNR + 1) ⟨dir, fn 0, none⟩ true
        = (pre 0 ++ (chainContent n fn pre post leaf 1 ++ post 0), 0) ∧
      ∃ u v, pre 0 ++ (chainContent n fn pre post leaf 1 ++ post 0)
          = u ++ (dirText (fn 2) ++ v)) := by
  have hflat0 : ∀ ch ∈ flattenFrom pre post leaf n 0, ch ≠ '@' ∧ ch ≠ '$' := by
    apply flattenFrom_chars pre post leaf hleaf n 0
    intro j h1 h2
    exact ⟨fun ch hch => ⟨(hpre j (by omega) ch hch).1, (hpre j (by omega) ch hch).2.2⟩,
      fun ch hch => ⟨(hpost j (by omega) ch hch).1, (hpost j (by omega) ch hch).2.2⟩⟩
  refine ⟨⟨chain_resolve n dir leaf fn pre post fs hfn hpre hpost hleaf hfiles n 0
      (by omega) none,
    getMatches_eq_nil_of_no_at _ fun ch hch => (hflat0 ch hch).1⟩, fun hn2 => ?_⟩
  have h0n : (0 : Nat) < n := by omega
  have h1n : (1 : Nat) < n := by omega
  have hcc0 : chainContent n fn pre post leaf 0 = pre 0 ++ (dirText (fn 1) ++ post 0) := by
    rw [chainContent, if_neg (by omega)]
  have hcc1 : chainContent n fn pre post leaf 1 = pre 1 ++ (dirText (fn 2) ++ post 1) := by
    rw [chainContent, if_neg (by omega)]
  have hread := hfiles 0 (by omega)
  rw [hcc0] at hread
  have hms : getMatches (pre 0 ++ (dirText (fn 1) ++ post 0))
      = [⟨dirText (fn 1), fn 1⟩] := by
    have hgm := getMatches_single (pre 0) (fn 1) (post 0)
      (fun ch hch => (hpre 0 h0n ch hch).1)
      (fun ch hch => (hfn 1 (by omega) ch hch).1)
      (fun ch hch => ⟨(hpost 0 h0n ch hch).1, (hpost 0 h0n ch hch).2.1⟩)
    rw [List.append_assoc] at hgm
    exact hgm
  have hmdir : matchDir ⟨dir, fn 0, none⟩ = dir := by
    simp [matchDir,
      getDirectory_eq_nil (fn 0) fun ch hch => (hfn 0 (by omega) ch hch).2.1]
  have hfragread : fs (joinPath (matchDir ⟨dir, fn 0, none⟩) (fn 1))
      = ReadRes.ok (chainContent n fn pre post leaf 1) := by
    rw [hmdir]
    exact hfiles 1 (by omega)
  have hccd : ∀ ch ∈ chainContent n fn pre post leaf 1, ch ≠ '$' := by
    rw [hcc1]
    intro ch hch
    simp only [List.mem_append] at hch
    rcases hch with h | h | h
    · exact (hpre 1 h1n ch h).2.2
    · exact dirText_no_dollar (fn 2) (fun c2 hc2 => (hfn 2 (by omega) c2 hc2).2.2) ch h
    · exact (hpost 1 h1n ch h).2.2
  constructor
  · rw [doFileInclude_ok false fs fuelNR _ true _ hread, hms,
      doFileIncludeLoop_cons_ok _ _ _ _ _ _ _ _ _ hfragread]
    have e1 : jsReplace (pre 0 ++ (dirText (fn 1) ++ post 0)) (dirText (fn 1))
        (chainContent n fn pre post leaf 1)
        = pre 0 ++ (chainContent n fn pre post leaf 1 ++ post 0) :=
      jsReplace_exact _ _ _ _
        (firstIdx_dirText (pre 0) (fn 1) (post 0)
          fun ch hch => (hpre 0 h0n ch hch).1)
        hccd
    rw [e1, doFileIncludeLoop_nil]
  · refine ⟨pre 0 ++ pre 1, post 1 ++ post 0, ?_⟩
    rw [hcc1]
    simp [List.append_assoc]

/-- Chain filenames of the C3 witness. -/
def fnW : Nat → List Char
  | 0 => "a.html".toList
  | 1 => "b.html".toList
  | _ => "c.html".toList

/-- Text before the directive in each chain file of the C3 witness. -/
def preW : Nat → List Char := fun _ => "[".toList

/-- Text after the directive in each chain file of the C3 witness. -/
def postW : Nat → List Char := fun _ => "]".toList

/-- The filesystem of the C3 witness: a depth-2 include chain. -/
def fsC3w : FS := fun p =>
  if p = "src/a.html".toList then ReadRes.ok (chainContent 2 fnW preW postW "LEAF".toList 0)
  else if p = "src/b.html".toList then
    ReadRes.ok (chainContent 2 fnW preW postW "LEAF".toList 1)
  else if p = "src/c.html".toList then
    ReadRes.ok (chainContent 2 fnW preW postW "LEAF".toList 2)
  else ReadRes.err

/-- Witness for the amended C3 on a concrete depth-2 chain: recursive
resolution flattens fully, non-recursive resolution keeps the fragment's
own directive literally. -/
theorem claim_c3_witness :
    doFileInclude true fsC3w 3 ⟨"src".toList, "a.html".toList, none⟩ true
      = ("[[LEAF]]".toList, 0) ∧
    doFileInclude false fsC3w 1 ⟨"src".toList, "a.html".toList, none⟩ true
      = ("[[".toList ++ dirText "c.html".toList ++ "]]".toList, 0) := by
  have h := claim_c3_flattening_amended 2 0 "src".toList "LEAF".toList fnW preW postW fsC3w
    (by decide) (by decide) (by decide) (by decide) (by decide)
  exact ⟨h.1.1.trans (by decide), ((h.2 (by omega)).1).trans (by decide)⟩

/-! Claim C2: the Fragment Classifier. -/

/-- All matches of all files of a discovered set, in order. -/
def allMatchesOf (files : List SourceFile) : List DirectiveMatch :=
  files.flatMap SourceFile.matchList

theorem foldl_filter_preds {α : Type} (ps : List (α → Bool)) :
    ∀ init : List α, ps.foldl (fun acc pr => acc.filter pr) init
      = init.filter (fun x => ps.all (fun pr => pr x)) := by
  induction ps with
  | nil => intro init; simp
  | cons p ps ih =>
    intro init
    rw [List.foldl_cons, ih (init.filter p), List.filter_filter]
    apply List.filter_congr
    intro x _
    simp [List.all_cons, Bool.and_comm]

theorem foldl_nested {α β γ : Type} (L : List β) (g : β → List γ) (f : α → γ → α) :
    ∀ init : α, L.foldl (fun acc b => (g b).foldl f acc) init
      = (L.flatMap g).foldl f init := by
  induction L with
  | nil => intro _; rfl
  | cons b L ih =>
    intro init
    rw [List.foldl_cons, ih, List.flatMap_cons, List.foldl_append]

theorem all_map_apply {α γ : Type} (l : List γ) (pred : γ → α → Bool) (x : α) :
    (l.map pred).all (fun pr => pr x) = l.all (fun m => pred m x) := by
  induction l <;> simp [*]

theorem removeIncludedFiles_eq_filter (files : List SourceFile) :
    removeIncludedFiles files
      = files.filter (fun f => (allMatchesOf files).all
          (fun m => decide (getFilename m.filename ≠ f.filename))) := by
  unfold removeIncludedFiles
  have h1 : ∀ (file : SourceFile) (acc : List SourceFile),
      file.matchList.foldl
        (fun acc2 m => acc2.filter fun f => decide (getFilename m.filename ≠ f.filename)) acc
      = (file.matchList.map
          (fun m => fun f : SourceFile => decide (getFilename m.filename ≠ f.filename))).foldl
          (fun acc2 pr => acc2.filter pr) acc := by
    intro file acc
    rw [List.foldl_map]
  simp only [h1]
  rw [foldl_nested files
    (fun file => file.matchList.map
      fun m => fun f : SourceFile => decide (getFilename m.filename ≠ f.filename))
    (fun acc2 pr => acc2.filter pr) files]
  rw [← List.map_flatMap, foldl_filter_preds]
  apply List.filter_congr
  intro x _
  exact all_map_apply _ _ x

/-- The C2 counterexample input: `a.html` references `b.html`, and a
second discovered file has filename `sub/b.html` (a filename with a
directory segment, as the spec's data model allows). -/
def cexC2files : List SourceFile :=
  [⟨"src".toList, "a.html".toList, [⟨dirText "b.html".toList, "b.html".toList⟩]⟩,
   ⟨"src".toList, "sub/b.html".toList, []⟩]

/-- Counterexample to C2 as stated: the code compares the match's
basename with the file's STORED filename, not with the filename's last
path segment, so a file whose filename is `sub/b.html` is kept even
though its last segment `b.html` is the target of a directive; the
claim's last-segment characterization would exclude it. -/
theorem claim_c2_counterexample :
    removeIncludedFiles cexC2files = cexC2files ∧
    cexC2files.filter (fun f => (allMatchesOf cexC2files).all
        fun m => decide (getFilename m.filename ≠ getFilename f.filename))
      = [⟨"src".toList, "a.html".toList, [⟨dirText "b.html".toList, "b.html".toList⟩]⟩] ∧
    removeIncludedFiles cexC2files
      ≠ cexC2files.filter (fun f => (allMatchesOf cexC2files).all
          fun m => decide (getFilename m.filename ≠ getFilename f.filename)) :=
  ⟨by decide, by decide, by decide⟩

/-- C2 as amended: `removeIncludedFiles` returns exactly the subsequence
(order- and duplicate-preserving, hence a sublist) of the input whose
STORED filename differs from the last path segment of every match's
referenced path across all input files — the comparison ignores the
`directory` attribute entirely, so two files with the same filename in
different directories are treated identically.  When every input
filename is itself a bare basename (which is how the scanner builds
SourceFiles: it stores the last path segment as `filename`), this
coincides with the claimed comparison between last path segments. -/
theorem claim_c2_classifier_amended (files : List SourceFile) :
    ((removeIncludedFiles files).Sublist files ∧
      removeIncludedFiles files
        = files.filter (fun f => (allMatchesOf files).all
            fun m => decide (getFilename m.filename ≠ f.filename))) ∧
    ((∀ f ∈ files, ∀ ch ∈ f.filename, ch ≠ '/') →
      removeIncludedFiles files
        = files.filter (fun f => (allMatchesOf files).all
            fun m => decide (getFilename m.filename ≠ getFilename f.filename))) := by
  refine ⟨⟨?_, removeIncludedFiles_eq_filter files⟩, fun hseg => ?_⟩
  · rw [removeIncludedFiles_eq_filter files]
    exact List.filter_sublist files
  · rw [removeIncludedFiles_eq_filter files]
    apply List.filter_congr
    intro f hf
    rw [getFilename_eq_self f.filename (hseg f hf)]

/-- The C2 witness input: a root referencing `partials/header.html` and
the fragment itself, both with scanner-style basename filenames. -/
def wfilesC2 : List SourceFile :=
  [⟨"src".toList, "index.html".toList,
      [⟨dirText "partials/header.html".toList, "partials/header.html".toList⟩]⟩,
   ⟨"src/partials".toList, "header.html".toList, []⟩]

/-- Witness for the amended C2 on scanner-style input: the referenced
fragment is excluded, the root is kept. -/
theorem claim_c2_witness :
    removeIncludedFiles wfilesC2
      = wfilesC2.filter (fun f => (allMatchesOf wfilesC2).all
          fun m => decide (getFilename m.filename ≠ getFilename f.filename)) :=
  (claim_c2_classifier_amended wfilesC2).2 (by decide)

/-! Claim C4: soundness, completeness and order of the Directive Matcher. -/

/-- The suffix `s` begins a directive occurrence: the literal
`@@include(` and a quote, a path argument free of line terminators, a
quote and `)`. -/
def StartsDir (s : List Char) : Prop :=
  ∃ f, (∀ ch ∈ f, lineOk ch = true) ∧ (includeLit ++ (f ++ closeLit)) <+: s

/-- Characterisation of a match list against a content string: the
matches appear in first-occurrence order as non-overlapping substrings
of the content, every match's literal text is `@@include(` + quote +
captured path + quote + `)` with a line-terminator-free path (captured
verbatim), and no position outside the consumed regions begins a
directive occurrence (completeness: no occurrence is skipped). -/
def Scan (c : List Char) : List DirectiveMatch → Prop
  | [] => ∀ i, ¬ StartsDir (c.drop i)
  | m :: ms => ∃ n rest, c.drop n = m.string ++ rest
      ∧ (∀ i < n, ¬ StartsDir (c.drop i))
      ∧ m.string = includeLit ++ (m.filename ++ closeLit)
      ∧ (∀ ch ∈ m.filename, lineOk ch = true)
      ∧ Scan rest ms

theorem not_StartsDir_nil : ¬ StartsDir [] := by
  rintro ⟨f, _, u, hu⟩
  have := congrArg List.length hu
  simp [includeLit] at this

theorem not_StartsDir_of_not_lit {s : List Char}
    (h : includeLit.isPrefixOf s = false) : ¬ StartsDir s := by
  rintro ⟨f, _, hpre⟩
  have hlit : includeLit <+: s :=
    List.IsPrefix.trans (List.prefix_append includeLit (f ++ closeLit)) hpre
  rw [(isPrefixOf_true_iff includeLit s).mpr hlit] at h
  exact absurd h (by simp)

theorem eq_append_drop_of_isPrefixOf {l s : List Char} (h : l.isPrefixOf s = true) :
    s = l ++ s.drop l.length := by
  obtain ⟨u, hu⟩ := (isPrefixOf_true_iff l s).mp h
  rw [← hu, List.drop_left]

theorem not_StartsDir_of_greedy_none {s : List Char}
    (_hlit : includeLit.isPrefixOf s = true)
    (hg : greedyCapture (s.drop includeLit.length) = none) : ¬ StartsDir s := by
  rintro ⟨f, hf, u, hu⟩
  set rest := s.drop includeLit.length with hrest
  have hs : s = includeLit ++ ((f ++ closeLit) ++ u) := by
    rw [← hu]
    simp [List.append_assoc]
  have hrestval : rest = f ++ (closeLit ++ u) := by
    rw [hrest, hs, List.drop_left]
    simp [List.append_assoc]
  have hclose : closeLit.isPrefixOf (rest.drop f.length) = true := by
    rw [hrestval, List.drop_left]
    exact isPrefixOf_append_self closeLit u
  have hlen : f.length ≤ (rest.takeWhile lineOk).length := by
    rw [hrestval, takeWhile_append_all lineOk f _ hf]
    simp
  have hmem : f.length ∈ (List.range ((rest.takeWhile lineOk).length + 1)).reverse := by
    rw [List.mem_reverse, List.mem_range]
    omega
  have := List.find?_eq_none.mp hg f.length hmem
  exact this hclose

theorem scan_cons {ch : Char} {cs : List Char} {ms : List DirectiveMatch}
    (hns : ¬ StartsDir (ch :: cs)) (hsc : Scan cs ms) : Scan (ch :: cs) ms := by
  cases ms with
  | nil =>
    intro i
    cases i with
    | zero => exact hns
    | succ j => exact hsc j
  | cons m ms2 =>
    obtain ⟨n, rest, h1, h2, h3, h4, h5⟩ := hsc
    refine ⟨n + 1, rest, h1, ?_, h3, h4, h5⟩
    intro i hi
    cases i with
    | zero => exact hns
    | succ j => exact h2 j (by omega)

theorem take_le_takeWhile_chars (p : Char → Bool) (l : List Char) (k : Nat)
    (h : k ≤ (l.takeWhile p).length) : ∀ ch ∈ l.take k, p ch = true := by
  intro ch hch
  have hsplit : l = l.takeWhile p ++ l.dropWhile p := (List.takeWhile_append_dropWhile p l).symm
  rw [hsplit, List.take_append_of_le_length h] at hch
  exact List.mem_takeWhile_imp (List.take_subset k _ hch)

theorem greedyCapture_some_facts {rest : List Char} {k : Nat}
    (h : greedyCapture rest = some k) :
    closeLit.isPrefixOf (rest.drop k) = true ∧ k ≤ (rest.takeWhile lineOk).length := by
  have hfind := List.find?_some h
  have hmem := List.mem_of_find?_eq_some h
  rw [List.mem_reverse, List.mem_range] at hmem
  exact ⟨hfind, by omega⟩

theorem drop_close_decomp (l : List Char) (k : Nat)
    (h : closeLit.isPrefixOf (l.drop k) = true) :
    l.drop k = closeLit ++ l.drop (k + 2) := by
  have h4 := eq_append_drop_of_isPrefixOf h
  have h6 : (l.drop k).drop closeLit.length = l.drop (k + 2) := by
    have h5 : closeLit.length = 2 := rfl
    rw [h5, List.drop_drop]
  rw [h6] at h4
  exact h4

theorem scan_getMatchesAux : ∀ (fuel : Nat) (s : List Char), s.length ≤ fuel →
    Scan s (getMatchesAux fuel s) := by
  intro fuel
  induction fuel with
  | zero =>
    intro s hs
    have : s = [] := by
      cases s with
      | nil => rfl
      | cons a t => simp at hs
    subst this
    intro i
    rw [List.drop_nil]
    exact not_StartsDir_nil
  | succ fuel2 ih =>
    intro s hs
    cases s with
    | nil =>
      intro i
      rw [List.drop_nil]
      exact not_StartsDir_nil
    | cons c cs =>
      by_cases hlit : includeLit.isPrefixOf (c :: cs) = true
      · cases hg : greedyCapture ((c :: cs).drop includeLit.length) with
        | none =>
          have hstep : getMatchesAux (fuel2 + 1) (c :: cs) = getMatchesAux fuel2 cs := by
            rw [getMatchesAux, hlit]
            simp [hg]
          rw [hstep]
          exact scan_cons (not_StartsDir_of_greedy_none hlit hg)
            (ih cs (by simp at hs; omega))
        | some k =>
          have hstep : getMatchesAux (fuel2 + 1) (c :: cs)
              = ⟨includeLit ++ ((c :: cs).drop includeLit.length).take k ++ closeLit,
                  ((c :: cs).drop includeLit.length).take k⟩ ::
                getMatchesAux fuel2 (((c :: cs).drop includeLit.length).drop (k + 2)) := by
            rw [getMatchesAux, hlit]
            simp [hg]
          rw [hstep]
          obtain ⟨hclose, hkle⟩ := greedyCapture_some_facts hg
          have hdecomp : ∀ rest : List Char, rest = (c :: cs).drop includeLit.length →
              c :: cs = (includeLit ++ rest.take k ++ closeLit) ++ rest.drop (k + 2) := by
            intro rest hr
            have h1 : c :: cs = includeLit ++ rest := by
              rw [hr]
              exact eq_append_drop_of_isPrefixOf hlit
            have h2 : rest = rest.take k ++ rest.drop k := (List.take_append_drop k rest).symm
            have h3 : rest.drop k = closeLit ++ rest.drop (k + 2) := by
              rw [hr]
              exact drop_close_decomp _ k hclose
            rw [h1]
            conv_lhs => rw [h2, h3]
            simp [List.append_assoc]
          refine ⟨0, ((c :: cs).drop includeLit.length).drop (k + 2), ?_, by omega, ?_, ?_, ?_⟩
          · rw [List.drop_zero]
            exact hdecomp _ rfl
          · simp [List.append_assoc]
          · exact take_le_takeWhile_chars lineOk _ k hkle
          · apply ih
            have e1 : (((c :: cs).drop includeLit.length).drop (k + 2)).length
                = ((c :: cs).drop includeLit.length).length - (k + 2) :=
              List.length_drop _ _
            have e2 : ((c :: cs).drop includeLit.length).length
                = (c :: cs).length - includeLit.length := List.length_drop _ _
            have e3 : (c :: cs).length = cs.length + 1 := by simp
            have e4 : includeLit.length = 11 := rfl
            simp only [e3] at hs e2
            omega
      · have hlitf : includeLit.isPrefixOf (c :: cs) = false := by
          cases hb : includeLit.isPrefixOf (c :: cs)
          · rfl
          · exact absurd hb hlit
        have hstep : getMatchesAux (fuel2 + 1) (c :: cs) = getMatchesAux fuel2 cs := by
          rw [getMatchesAux, hlitf]
          simp
        rw [hstep]
        exact scan_cons (not_StartsDir_of_not_lit hlitf) (ih cs (by simp at hs; omega))

/-- C4: the Directive Matcher characterisation.  For every content
string, the matches returned by `getMatches` decompose the content into
non-overlapping occurrences in first-occurrence (left-to-right) order;
every match's literal text is exactly `@@include(`, a quote, the path
argument captured verbatim (free of line terminators), a quote and `)`;
and no unconsumed position begins a further directive occurrence, so
every occurrence yields a match.  The matcher is a total pure function
(it never fails and has no side effects), and the empty match list —
obtained exactly when no position of the content begins a directive —
is a valid result. -/
theorem claim_c4_matcher_characterization : ∀ c : List Char, Scan c (getMatches c) :=
  fun c => scan_getMatchesAux c.length c le_rfl

/-! Claims C6 and C9: the scanning batch and the pipeline. -/

theorem checkForPattern_skip (fs : FS) (p c : List Char)
    (hp : fs p = ReadRes.ok c) (hm : getMatches c = []) :
    ∀ pre post, checkForPattern fs (pre ++ p :: post) = checkForPattern fs (pre ++ post) := by
  intro pre
  induction pre with
  | nil =>
    intro post
    simp only [List.nil_append]
    rw [checkForPattern, hp]
    simp [hm]
  | cons f pre2 ih =>
    intro post
    simp only [List.cons_append, checkForPattern]
    cases hf : fs f with
    | ok c2 =>
      by_cases hms : getMatches c2 = [] <;> simp [hms, ih post]
    | eisdir => rfl
    | err => exact ih post

theorem checkForPattern_break (fs : FS) (d : List Char) (hd : fs d = ReadRes.eisdir) :
    ∀ pre post, (∀ f ∈ pre, fs f ≠ ReadRes.eisdir) →
      checkForPattern fs (pre ++ d :: post) = checkForPattern fs pre := by
  intro pre
  induction pre with
  | nil =>
    intro post _
    simp only [List.nil_append]
    simp [checkForPattern, hd]
  | cons f pre2 ih =>
    intro post h
    simp only [List.cons_append, checkForPattern]
    cases hf : fs f with
    | ok c2 =>
      by_cases hms : getMatches c2 = [] <;>
        simp [hms, ih post fun x hx => h x (by simp [hx])]
    | eisdir => exact absurd hf (h f (by simp))
    | err => exact ih post fun x hx => h x (by simp [hx])

theorem init_eq_unguarded (recursive omitSP : Bool) (fs : FS) (canWrite : List Char → Bool)
    (dest : List Char) (fuel : Nat) (found : List (List Char)) :
    init recursive omitSP fs canWrite dest fuel found
      = writeFiles recursive omitSP fs canWrite dest fuel
          (removeIncludedFiles (checkForPattern fs found)) := by
  unfold init
  by_cases h1 : found.length ≠ 0
  · by_cases h2 : (checkForPattern fs found).length ≠ 0
    · by_cases h3 : (removeIncludedFiles (checkForPattern fs found)).length ≠ 0
      · simp only [if_pos h1, if_pos h2, if_pos h3]
      · have h0 : removeIncludedFiles (checkForPattern fs found) = [] :=
          List.length_eq_zero.mp (by omega)
        simp only [if_pos h1, if_pos h2, h0]
        rfl
    · have h0 : checkForPattern fs found = [] := List.length_eq_zero.mp (by omega)
      simp only [if_pos h1, h0]
      rfl
  · have h0 : found = [] := List.length_eq_zero.mp (by omega)
    subst h0
    rfl

/-- C9: a discovered candidate whose contents contain no directive at all
is dropped during directive scanning and contributes nothing to the rest
of the run: the scanner output is unchanged by its presence, and so the
entire pipeline — classification, resolution, written files, the written
counter and the error counter — produces identical results with or
without it in the discovered list. -/
theorem claim_c9_directiveless_dropped (recursive omitSP : Bool) (fs : FS)
    (canWrite : List Char → Bool) (dest : List Char) (fuel : Nat)
    (pre post : List (List Char)) (p c : List Char)
    (hp : fs p = ReadRes.ok c) (hm : getMatches c = []) :
    checkForPattern fs (pre ++ p :: post) = checkForPattern fs (pre ++ post) ∧
    init recursive omitSP fs canWrite dest fuel (pre ++ p :: post)
      = init recursive omitSP fs canWrite dest fuel (pre ++ post) := by
  have hc := checkForPattern_skip fs p c hp hm pre post
  exact ⟨hc, by rw [init_eq_unguarded, init_eq_unguarded, hc]⟩

/-- The filesystem of the C9 witness: one candidate with a directive, one
plain candidate without any. -/
def fsC9 : FS := fun p =>
  if p = "src/with.html".toList then
    ReadRes.ok ("q".toList ++ dirText "frag.html".toList ++ "r".toList)
  else if p = "src/frag.html".toList then ReadRes.ok "FRAG".toList
  else if p = "src/plain.html".toList then ReadRes.ok "nothing here".toList
  else ReadRes.err

/-- Witness for C9: the run over both candidates equals the run without
the directive-free one. -/
theorem claim_c9_witness :
    init true true fsC9 (fun _ => true) "build".toList 2
        ["src/with.html".toList, "src/plain.html".toList]
      = init true true fsC9 (fun _ => true) "build".toList 2 ["src/with.html".toList] :=
  (claim_c9_directiveless_dropped true true fsC9 (fun _ => true) "build".toList 2
    ["src/with.html".toList] [] "src/plain.html".toList "nothing here".toList
    (by decide) (by decide)).2

/-- The filesystem of the C6 counterexample: the first candidate reads as
a directory (`EISDIR`), the second holds a perfectly resolvable
directive. -/
def fsC6 : FS := fun p =>
  if p = "src/dir".toList then ReadRes.eisdir
  else if p = "src/with.html".toList then
    ReadRes.ok ("z".toList ++ dirText "f.html".toList ++ "w".toList)
  else if p = "src/f.html".toList then ReadRes.ok "F".toList
  else ReadRes.err

/-- Counterexample to C6 as stated: a run whose discovery batch hits an
`EISDIR` candidate ends with an error counter of 0 — `checkForPattern`
logs and breaks but never increments `summary.errors` — while the claim
requires the counter to be incremented; the early abort itself is real
(the resolvable candidate after the directory is never scanned, nothing
is written). -/
theorem claim_c6_counterexample :
    init true true fsC6 (fun _ => true) "build".toList 3
        ["src/dir".toList, "src/with.html".toList]
      = ([], 0, 0) := by decide

/-- C6 as amended: when reading a discovered candidate fails with
`EISDIR`, the error is logged and scanning of the current discovery
batch stops early — no later candidate is scanned — and the whole run
behaves exactly as if the batch had ended just before the directory
entry; in particular the error counter is NOT incremented for it.
(Read failures other than `EISDIR` are silently skipped and scanning
continues; they abort nothing.) -/
theorem claim_c6_batch_abort_amended (recursive omitSP : Bool) (fs : FS)
    (canWrite : List Char → Bool) (dest : List Char) (fuel : Nat)
    (pre post : List (List Char)) (d : List Char)
    (hd : fs d = ReadRes.eisdir) (hpre : ∀ f ∈ pre, fs f ≠ ReadRes.eisdir) :
    checkForPattern fs (pre ++ d :: post) = checkForPattern fs pre ∧
    init recursive omitSP fs canWrite dest fuel (pre ++ d :: post)
      = init recursive omitSP fs canWrite dest fuel pre := by
  have hc := checkForPattern_break fs d hd pre post hpre
  exact ⟨hc, by rw [init_eq_unguarded, init_eq_unguarded, hc]⟩

/-- The filesystem of the C6 witness: a readable candidate with a
directive, then a directory, then another readable candidate. -/
def fsC6w : FS := fun p =>
  if p = "src/a.html".toList then
    ReadRes.ok ("u".toList ++ dirText "frag.html".toList ++ "v".toList)
  else if p = "src/frag.html".toList then ReadRes.ok "F".toList
  else if p = "src/dir".toList then ReadRes.eisdir
  else if p = "src/b.html".toList then
    ReadRes.ok ("m".toList ++ dirText "frag.html".toList ++ "n".toList)
  else ReadRes.err

/-- Witness for the amended C6: the run over the full batch equals the
run over the part before the directory. -/
theorem claim_c6_witness :
    init true true fsC6w (fun _ => true) "build".toList 2
        ["src/a.html".toList, "src/dir".toList, "src/b.html".toList]
      = init true true fsC6w (fun _ => true) "build".toList 2 ["src/a.html".toList] :=
  (claim_c6_batch_abort_amended true true fsC6w (fun _ => true) "build".toList 2
    ["src/a.html".toList] ["src/b.html".toList] "src/dir".toList
    (by decide) (by decide)).2
